import Mathlib

/-!
Verification of the core of `Flowers_for_Algorithm` (`src/flowers.cpp`):
a drive-evaluation state machine for a simulated rat and a Dijkstra-style
shortest-path search over a small directed weighted graph.

C++ `int` values are modelled as `Int` (the quantities involved stay far from
the 32-bit overflow boundary), the per-node weight array as a function
`Nat → Int`, and the console I/O (prompts, narrative text) is dropped: it
never feeds back into the data the functions compute.
-/

/-- FUN_MAX (flowers.cpp line 37). -/
def FUN_MAX : Int := 35

/-- HEALTH_MAX (line 38). -/
def HEALTH_MAX : Int := 60

/-- HUNGER_MAX (line 39). -/
def HUNGER_MAX : Int := 30

/-- SLEEP_MAX (line 40). -/
def SLEEP_MAX : Int := 40

/-- VERTEX_COUNT (line 41): the number of edges read into the edge array. -/
def VERTEX_COUNT : Nat := 18

/-- INFINITY_APPROX (line 42). -/
def INFINITY_APPROX : Int := 42

/-- struct ratState (lines 44-49).  The C++ field `fun` is a reserved word in
Lean, hence the trailing underscore. -/
structure ratState where
  fun_ : Int
  health : Int
  hunger : Int
  sleep : Int
deriving DecidableEq

/-- struct edgeWeight (lines 51-55). -/
structure edgeWeight where
  initial : Char
  terminal : Char
  weight : Int
deriving DecidableEq

/-- initializeDrives (lines 145-153): each drive is `rand() % MAX`.  `rand()`
returns a nonnegative int; the four arguments model the four successive
`rand()` results. -/
def initializeDrives (r1 r2 r3 r4 : Nat) : ratState :=
  { fun_ := (r1 % 35 : Nat)
    health := (r2 % 60 : Nat)
    hunger := (r3 % 30 : Nat)
    sleep := (r4 % 40 : Nat) }

/-- setPercentage (lines 189-195).  C++ integer division truncates toward
zero, which is `Int.tdiv`. -/
def setPercentage (drives : ratState) : ratState :=
  { fun_ := Int.tdiv (100 * drives.fun_) FUN_MAX
    health := Int.tdiv (100 * drives.health) HEALTH_MAX
    hunger := Int.tdiv (100 * drives.hunger) HUNGER_MAX
    sleep := Int.tdiv (100 * drives.sleep) SLEEP_MAX }

/-- identifyState (lines 156-186) without its printing calls (printDrives and
printState only produce console text).  The running minimum `index` and the
chosen letter `biggestNeed` are threaded through the same strict less-than
comparison chain as the source, starting from health / 'M'. -/
def identifyState (drives : ratState) : Char :=
  let percent := setPercentage drives
  let index1 := percent.health
  let biggest1 := 'M'
  let index2 := if percent.hunger < index1 then percent.hunger else index1
  let biggest2 := if percent.hunger < index1 then 'F' else biggest1
  let index3 := if percent.sleep < index2 then percent.sleep else index2
  let biggest3 := if percent.sleep < index2 then 'N' else biggest2
  let index4 := if percent.fun_ < index3 then percent.fun_ else index3
  let biggest4 := if percent.fun_ < index3 then 'W' else biggest3
  if 50 < index4 then 'E' else biggest4

/-- Modelled from the spec (§4.3 `classify`): take the minimum percentage of
{health, hunger, sleep, fun} and return the earliest drive in that precedence
order attaining it, overridden to 'E' (Exit) when the minimum exceeds 50.
Used as the specification side of the refinement claim about
`identifyState`. -/
def classifySpec (p : ratState) : Char :=
  let m := min (min (min p.health p.hunger) p.sleep) p.fun_
  if 50 < m then 'E'
  else if p.health = m then 'M'
  else if p.hunger = m then 'F'
  else if p.sleep = m then 'N'
  else 'W'

/-- updateState (lines 230-244): subtract the distance traveled from every
drive, clamping at 0. -/
def updateState (drives : ratState) (travel : Int) : ratState :=
  { fun_ := if drives.fun_ - travel < 0 then 0 else drives.fun_ - travel
    health := if drives.health - travel < 0 then 0 else drives.health - travel
    hunger := if drives.hunger - travel < 0 then 0 else drives.hunger - travel
    sleep := if drives.sleep - travel < 0 then 0 else drives.sleep - travel }

/-- satisfyNeed (lines 247-275) without its printing: the switch on the
current location refills the drive of the matching station and does nothing
for any other location. -/
def satisfyNeed (drives : ratState) (currentLocation : Char) : ratState :=
  if currentLocation = 'F' then { drives with hunger := HUNGER_MAX }
  else if currentLocation = 'M' then { drives with health := HEALTH_MAX }
  else if currentLocation = 'N' then { drives with sleep := SLEEP_MAX }
  else if currentLocation = 'W' then { drives with fun_ := FUN_MAX }
  else drives

/-- One step of the simulation loop as it touches the drive state: either a
travel of some distance (updateState) or an arrival at a node
(satisfyNeed). -/
inductive ratOp where
  | travel (t : Int)
  | arrive (loc : Char)

/-- Apply one drive-state operation. -/
def applyOp (d : ratState) : ratOp → ratState
  | ratOp.travel t => updateState d t
  | ratOp.arrive c => satisfyNeed d c

/-- Apply a sequence of drive-state operations, oldest first. -/
def runOps (d : ratState) (ops : List ratOp) : ratState :=
  ops.foldl applyOp d

/-- The declared bounds of the four drives (spec §3 DriveState). -/
def inBounds (d : ratState) : Prop :=
  0 ≤ d.fun_ ∧ d.fun_ ≤ 35 ∧ 0 ≤ d.health ∧ d.health ≤ 60 ∧
    0 ≤ d.hunger ∧ d.hunger ≤ 30 ∧ 0 ≤ d.sleep ∧ d.sleep ≤ 40

instance (d : ratState) : Decidable (inBounds d) := by
  unfold inBounds; infer_instance

/-- A travel operation is fed a nonnegative distance; arrivals are
unconstrained. -/
def opOK : ratOp → Prop
  | ratOp.travel t => 0 ≤ t
  | ratOp.arrive _ => True

instance (op : ratOp) : Decidable (opOK op) := by
  cases op <;> (unfold opOK; infer_instance)

/-- nodeToNumber (lines 345-375).  For a character outside the seven-letter
alphabet the C++ switch leaves the result variable uninitialized (undefined
behaviour); the model returns 7, an index never read by the algorithm on the
inputs the claims quantify over. -/
def nodeToNumber (nodeLetter : Char) : Nat :=
  match nodeLetter with
  | 'E' => 0
  | 'N' => 1
  | 'F' => 2
  | 'A' => 3
  | 'W' => 4
  | 'B' => 5
  | 'M' => 6
  | _ => 7

/-- numberToNode (lines 377-407).  For a number outside 0..6 the C++ switch
leaves the result uninitialized; the model returns '?'. -/
def numberToNode (nodeNumber : Nat) : Char :=
  match nodeNumber with
  | 0 => 'E'
  | 1 => 'N'
  | 2 => 'F'
  | 3 => 'A'
  | 4 => 'W'
  | 5 => 'B'
  | 6 => 'M'
  | _ => '?'

/-- The seven-letter node alphabet. -/
def nodes : Finset Char := {'E', 'N', 'F', 'A', 'W', 'B', 'M'}

/-- Pointwise update of the node-weight array. -/
def setW (nw : Nat → Int) (i : Nat) (v : Int) : Nat → Int :=
  fun j => if j = i then v else nw j

/-- initializeNodeWeight (lines 410-414): every slot holds the 42 sentinel. -/
def initializeNodeWeight : Nat → Int :=
  fun _ => INFINITY_APPROX

/-- findNeighbors (lines 417-430): for every edge leaving the current node,
relax the tentative weight of its terminal node.  The C++ loop walks the edge
array in order, updating the weight array in place. -/
def findNeighbors : List edgeWeight → (Nat → Int) → Char → Nat → (Nat → Int)
  | [], nw, _, _ => nw
  | e :: es, nw, currentNode, currentNum =>
    if e.initial = currentNode then
      if e.weight + nw currentNum < nw (nodeToNumber e.terminal) then
        findNeighbors es
          (setW nw (nodeToNumber e.terminal) (e.weight + nw currentNum))
          currentNode currentNum
      else findNeighbors es nw currentNode currentNum
    else findNeighbors es nw currentNode currentNum

/-- removeVertex (lines 433-443): blank out (to 'Z') both endpoints of every
edge terminating at the given node; weights are kept. -/
def removeVertex (newGraph : List edgeWeight) (currentLocation : Char) : List edgeWeight :=
  newGraph.map fun e =>
    if e.terminal = currentLocation then { initial := 'Z', terminal := 'Z', weight := e.weight } else e

/-- The scan of findLeast (lines 446-463): walk indices 0..8 keeping the
least strictly-positive weight below the running base (initially 42).  The
accumulator's second component is the best index so far; `none` models the
C++ `node` variable still being uninitialized. -/
def findLeastAux (nw : Nat → Int) : List Nat → Int × Option Nat → Int × Option Nat
  | [], acc => acc
  | i :: is, (base, node) =>
    if nw i ≠ 0 ∧ nw i < base then findLeastAux nw is (nw i, some i)
    else findLeastAux nw is (base, node)

/-- findLeast (lines 446-463).  When no slot qualifies the C++ code reads the
uninitialized `node` (undefined behaviour); the model returns `none`. -/
def findLeast (nw : Nat → Int) : Option Char :=
  ((findLeastAux nw (List.range 9) (42, none)).2).map numberToNode

/-- Outcome of findRoute: either arrival at a node with the traveled
distance, or the undefined-behaviour situation in which findLeast finds no
candidate node (the C++ code would read uninitialized memory there). -/
inductive RouteResult where
  | ok (loc : Char) (dist : Int)
  | stuck
deriving DecidableEq

/-- The while loop of findRoute (lines 328-337), fuel-indexed so that it is a
total function: relax the neighbours of the current node, prune the edges
into it, zero its weight slot (the visited marker) and move to the least
remaining fringe node.  `none` means the fuel ran out. -/
def findRouteLoop (currentState : Char) : Nat → List edgeWeight → (Nat → Int) → Char → Option RouteResult
  | 0, _, _, _ => none
  | Nat.succ fuel, newGraph, nodeWeight, currentNode =>
    if currentNode = currentState then
      some (RouteResult.ok currentNode (nodeWeight (nodeToNumber currentNode)))
    else
      let nw1 := findNeighbors newGraph nodeWeight currentNode (nodeToNumber currentNode)
      let g1 := removeVertex newGraph currentNode
      let nw2 := setW nw1 (nodeToNumber currentNode) 0
      match findLeast nw2 with
      | none => some RouteResult.stuck
      | some next => findRouteLoop currentState fuel g1 nw2 next

/-- findRoute (lines 313-343): initialize the weight array (42 everywhere,
0 at the start node) and run the search loop.  The loop visits each of the at
most 7 nodes at most once before exiting or getting stuck, so 9 units of fuel
are never exhausted. -/
def findRoute (newGraph : List edgeWeight) (currentLocation currentState : Char) : Option RouteResult :=
  findRouteLoop currentState 9 newGraph
    (setW initializeNodeWeight (nodeToNumber currentLocation) 0) currentLocation

/-- loadGraph (lines 279-298).  The external file is modelled by `opened`
(whether `ifstream::open` succeeded) and `triples`, the list of well-formed
whitespace-separated (initial, terminal, weight) triples the stream holds.
The C++ code only tests the open; the 18 `>>` extractions are never checked,
so when the stream holds fewer than 18 triples the remaining array slots stay
unwritten (modelled as `none`) and the function still reports success. -/
def loadGraph (opened : Bool) (triples : List edgeWeight) : Option (List (Option edgeWeight)) :=
  if opened then some ((List.range VERTEX_COUNT).map fun i => triples[i]?) else none

/-- Sum of the weights of a list of edges. -/
def weightSum (l : List edgeWeight) : Int :=
  (l.map edgeWeight.weight).sum

/-- Directed paths in the edge list `g`: `IsPath g a b p` states that the
edges `p`, in order, lead from node `a` to node `b`. -/
inductive IsPath (g : List edgeWeight) : Char → Char → List edgeWeight → Prop where
  | nil (c : Char) : IsPath g c c []
  | cons {b : Char} (e : edgeWeight) {p : List edgeWeight} (he : e ∈ g)
      (hp : IsPath g e.terminal b p) : IsPath g e.initial b (e :: p)

/-- `b` is reachable from `a` in the graph `g`. -/
def Reach (g : List edgeWeight) (a b : Char) : Prop :=
  ∃ p, IsPath g a b p

/-- `d` is the minimum total edge weight over all directed paths from `a` to
`b` in `g`. -/
def IsDist (g : List edgeWeight) (a b : Char) (d : Int) : Prop :=
  (∃ p, IsPath g a b p ∧ weightSum p = d) ∧ ∀ q, IsPath g a b q → d ≤ weightSum q

/-! ### Drive-tracker claims -/

/-- Claim C4: for every drive state, identifyState selects the drive whose
percentage is the minimum of {health, hunger, sleep, fun} in that precedence
order, exact ties going to the earlier-listed drive (health / 'M' being the
default of the strict less-than chain), overridden to 'E' when the selected
minimum exceeds 50. -/
theorem identifyState_classifies (d : ratState) :
    identifyState d = classifySpec (setPercentage d) := by
  unfold identifyState classifySpec
  generalize setPercentage d = p
  rcases p with ⟨f, h, hu, s⟩
  dsimp only
  split_ifs <;> first | rfl | omega

/-- Claim C5: updateState subtracts the travel distance from all four drives
and clamps each at 0. -/
theorem updateState_decay (d : ratState) (t : Int) (ht : 0 ≤ t) :
    (updateState d t).fun_ = max 0 (d.fun_ - t) ∧
    (updateState d t).health = max 0 (d.health - t) ∧
    (updateState d t).hunger = max 0 (d.hunger - t) ∧
    (updateState d t).sleep = max 0 (d.sleep - t) ∧
    0 ≤ (updateState d t).fun_ ∧ 0 ≤ (updateState d t).health ∧
    0 ≤ (updateState d t).hunger ∧ 0 ≤ (updateState d t).sleep := by
  unfold updateState
  dsimp only
  refine ⟨?_, ?_, ?_, ?_, ?_, ?_, ?_, ?_⟩ <;> split_ifs <;> omega

theorem updateState_decay_witness :
    (updateState ⟨5, 50, 2, 40⟩ 7).fun_ = max 0 ((5 : Int) - 7) ∧
    (updateState ⟨5, 50, 2, 40⟩ 7).health = max 0 ((50 : Int) - 7) ∧
    (updateState ⟨5, 50, 2, 40⟩ 7).hunger = max 0 ((2 : Int) - 7) ∧
    (updateState ⟨5, 50, 2, 40⟩ 7).sleep = max 0 ((40 : Int) - 7) ∧
    0 ≤ (updateState ⟨5, 50, 2, 40⟩ 7).fun_ ∧ 0 ≤ (updateState ⟨5, 50, 2, 40⟩ 7).health ∧
    0 ≤ (updateState ⟨5, 50, 2, 40⟩ 7).hunger ∧ 0 ≤ (updateState ⟨5, 50, 2, 40⟩ 7).sleep :=
  updateState_decay ⟨5, 50, 2, 40⟩ 7 (by decide)

/-- Claim C6: satisfyNeed resets exactly the drive of the arrival node to its
maximum (hunger = 30 at 'F', health = 60 at 'M', sleep = 40 at 'N',
fun = 35 at 'W'), leaving the other three drives unchanged, and is the
identity for any node with no associated need. -/
theorem satisfyNeed_frame (d : ratState) (loc : Char) :
    (loc = 'F' → satisfyNeed d loc = { d with hunger := 30 }) ∧
    (loc = 'M' → satisfyNeed d loc = { d with health := 60 }) ∧
    (loc = 'N' → satisfyNeed d loc = { d with sleep := 40 }) ∧
    (loc = 'W' → satisfyNeed d loc = { d with fun_ := 35 }) ∧
    (loc ≠ 'F' → loc ≠ 'M' → loc ≠ 'N' → loc ≠ 'W' → satisfyNeed d loc = d) := by
  refine ⟨?_, ?_, ?_, ?_, ?_⟩ <;> intros <;>
    simp [satisfyNeed, HUNGER_MAX, HEALTH_MAX, SLEEP_MAX, FUN_MAX, *]

theorem satisfyNeed_frame_witness :
    satisfyNeed ⟨1, 2, 3, 4⟩ 'E' = ⟨1, 2, 3, 4⟩ :=
  (satisfyNeed_frame ⟨1, 2, 3, 4⟩ 'E').2.2.2.2 (by decide) (by decide) (by decide) (by decide)

/-- Claim C8: on drives within their declared bounds, setPercentage computes
the floor of 100 * value / max for each drive (the C++ truncating integer
division agrees with the floor because the operands are nonnegative). -/
theorem setPercentage_floor (d : ratState) (h : inBounds d) :
    (setPercentage d).fun_ = ⌊((100 * d.fun_ : Int) : ℚ) / 35⌋ ∧
    (setPercentage d).health = ⌊((100 * d.health : Int) : ℚ) / 60⌋ ∧
    (setPercentage d).hunger = ⌊((100 * d.hunger : Int) : ℚ) / 30⌋ ∧
    (setPercentage d).sleep = ⌊((100 * d.sleep : Int) : ℚ) / 40⌋ := by
  obtain ⟨h1, -, h2, -, h3, -, h4, -⟩ := h
  unfold setPercentage FUN_MAX HEALTH_MAX HUNGER_MAX SLEEP_MAX
  dsimp only
  refine ⟨?_, ?_, ?_, ?_⟩
  · rw [Int.tdiv_eq_ediv (by omega) (by norm_num),
      show ((35 : ℚ)) = ((35 : ℕ) : ℚ) by norm_num,
      Rat.floor_intCast_div_natCast]
    norm_num
  · rw [Int.tdiv_eq_ediv (by omega) (by norm_num),
      show ((60 : ℚ)) = ((60 : ℕ) : ℚ) by norm_num,
      Rat.floor_intCast_div_natCast]
    norm_num
  · rw [Int.tdiv_eq_ediv (by omega) (by norm_num),
      show ((30 : ℚ)) = ((30 : ℕ) : ℚ) by norm_num,
      Rat.floor_intCast_div_natCast]
    norm_num
  · rw [Int.tdiv_eq_ediv (by omega) (by norm_num),
      show ((40 : ℚ)) = ((40 : ℕ) : ℚ) by norm_num,
      Rat.floor_intCast_div_natCast]
    norm_num

theorem setPercentage_floor_witness :
    (setPercentage ⟨10, 20, 15, 30⟩).fun_ = ⌊((100 * (10 : Int) : Int) : ℚ) / 35⌋ ∧
    (setPercentage ⟨10, 20, 15, 30⟩).health = ⌊((100 * (20 : Int) : Int) : ℚ) / 60⌋ ∧
    (setPercentage ⟨10, 20, 15, 30⟩).hunger = ⌊((100 * (15 : Int) : Int) : ℚ) / 30⌋ ∧
    (setPercentage ⟨10, 20, 15, 30⟩).sleep = ⌊((100 * (30 : Int) : Int) : ℚ) / 40⌋ :=
  setPercentage_floor ⟨10, 20, 15, 30⟩ (by decide)

/-- Every drive of a freshly initialized state is within its bounds. -/
theorem initializeDrives_inBounds (r1 r2 r3 r4 : Nat) :
    inBounds (initializeDrives r1 r2 r3 r4) := by
  unfold initializeDrives inBounds
  dsimp only
  have h1 : r1 % 35 < 35 := Nat.mod_lt _ (by norm_num)
  have h2 : r2 % 60 < 60 := Nat.mod_lt _ (by norm_num)
  have h3 : r3 % 30 < 30 := Nat.mod_lt _ (by norm_num)
  have h4 : r4 % 40 < 40 := Nat.mod_lt _ (by norm_num)
  refine ⟨?_, ?_, ?_, ?_, ?_, ?_, ?_, ?_⟩ <;> push_cast <;> omega

/-- Each legal drive operation preserves the drive bounds. -/
theorem applyOp_inBounds (d : ratState) (op : ratOp) (hd : inBounds d) (hop : opOK op) :
    inBounds (applyOp d op) := by
  obtain ⟨b1, b2, b3, b4, b5, b6, b7, b8⟩ := hd
  cases op with
  | travel t =>
    unfold applyOp updateState inBounds at *
    dsimp only at *
    unfold opOK at hop
    refine ⟨?_, ?_, ?_, ?_, ?_, ?_, ?_, ?_⟩ <;> split_ifs <;> omega
  | arrive c =>
    have happ : applyOp d (ratOp.arrive c) = satisfyNeed d c := rfl
    rw [happ]
    unfold satisfyNeed HUNGER_MAX HEALTH_MAX SLEEP_MAX FUN_MAX inBounds
    split_ifs <;> refine ⟨?_, ?_, ?_, ?_, ?_, ?_, ?_, ?_⟩ <;> first | omega | (simp only []; omega)

/-- Bounds are preserved along any legal operation sequence. -/
theorem runOps_inBounds (ops : List ratOp) :
    ∀ d, inBounds d → (∀ op ∈ ops, opOK op) → inBounds (runOps d ops) := by
  induction ops with
  | nil => intro d hd _; exact hd
  | cons op rest ih =>
    intro d hd hop
    have : runOps d (op :: rest) = runOps (applyOp d op) rest := rfl
    rw [this]
    exact ih _ (applyOp_inBounds d op hd (hop op (by simp))) fun o ho => hop o (by simp [ho])

/-- Claim C10: starting from initializeDrives, after any prefix of a sequence
of legal updateState (nonnegative distance) and satisfyNeed operations, every
drive is within its declared bounds. -/
theorem drive_bounds_invariant (r1 r2 r3 r4 : Nat) (ops pre suf : List ratOp)
    (hsplit : ops = pre ++ suf) (hok : ∀ op ∈ ops, opOK op) :
    inBounds (runOps (initializeDrives r1 r2 r3 r4) pre) :=
  runOps_inBounds pre _ (initializeDrives_inBounds r1 r2 r3 r4)
    fun op hop => hok op (by rw [hsplit]; exact List.mem_append_left _ hop)

theorem drive_bounds_invariant_witness :
    inBounds (runOps (initializeDrives 1 2 3 4) [ratOp.travel 5, ratOp.arrive 'F']) :=
  drive_bounds_invariant 1 2 3 4
    [ratOp.travel 5, ratOp.arrive 'F', ratOp.travel 100]
    [ratOp.travel 5, ratOp.arrive 'F'] [ratOp.travel 100] rfl (by decide)

/-! ### Node numbering -/

/-- Claim C9: nodeToNumber and numberToNode are mutually inverse bijections
between the alphabet {E, N, F, A, W, B, M} and the indices 0..6. -/
theorem node_number_bijection :
    (∀ c ∈ nodes, numberToNode (nodeToNumber c) = c) ∧
    (∀ n ∈ Finset.range 7, nodeToNumber (numberToNode n) = n) := by
  decide

theorem node_number_bijection_witness :
    numberToNode (nodeToNumber 'E') = 'E' :=
  node_number_bijection.1 'E' (by decide)

/-! ### Graph loading -/

/-- Claim C3 (refuted): a source holding only 17 well-formed triples is
loaded "successfully": loadGraph reports success and hands back a
partially-populated edge array whose last slot was never written, instead of
failing with a load error. -/
theorem loadGraph_short_source :
    loadGraph true (List.replicate 17 ⟨'E', 'N', 1⟩) =
      some ((List.replicate 17 (some (⟨'E', 'N', 1⟩ : edgeWeight))) ++ [none]) := by
  decide

/-! ### Shortest-path search: direct evaluations -/

/-- Claim C7: searching with source equal to target returns distance 0 and
leaves the current location at the source, for every graph and every node. -/
theorem findRoute_self_zero (g : List edgeWeight) (X : Char) :
    findRoute g X X = some (RouteResult.ok X 0) := by
  simp [findRoute, findRouteLoop, setW, initializeNodeWeight]

/-- Claim C2 (refuted on the code): on a graph in which the target is not
reachable from the source, findRoute does not report any error: findLeast's
scan finds no candidate node and returns an uninitialized variable (undefined
behaviour, modelled as `stuck`).  No `Unreachable` report exists anywhere in
findRoute's int-valued interface. -/
theorem findRoute_unreachable_stuck :
    ¬ Reach (List.replicate 18 ⟨'N', 'F', 1⟩) 'E' 'M' ∧
    findRoute (List.replicate 18 ⟨'N', 'F', 1⟩) 'E' 'M' = some RouteResult.stuck := by
  constructor
  · have key : ∀ (p : List edgeWeight) (a b : Char),
        IsPath (List.replicate 18 (⟨'N', 'F', 1⟩ : edgeWeight)) a b p → a = b ∨ a = 'N' := by
      intro p a b hp
      induction hp with
      | nil c => exact Or.inl rfl
      | cons e he hp ih =>
        right
        rw [List.eq_of_mem_replicate he]
    rintro ⟨p, hp⟩
    rcases key p 'E' 'M' hp with h | h <;> simp at h
  · decide

/-! ### Path theory -/

theorem weightSum_nil : weightSum [] = 0 := rfl

theorem weightSum_cons (e : edgeWeight) (p : List edgeWeight) :
    weightSum (e :: p) = e.weight + weightSum p := by
  simp [weightSum]

theorem weightSum_append (p q : List edgeWeight) :
    weightSum (p ++ q) = weightSum p + weightSum q := by
  simp [weightSum]

theorem isPath_mem {g : List edgeWeight} {a b : Char} {p : List edgeWeight}
    (hp : IsPath g a b p) : ∀ e ∈ p, e ∈ g := by
  induction hp with
  | nil c => intro e he; cases he
  | cons e he hp ih =>
    intro e' he'
    rcases List.mem_cons.mp he' with h | h
    · exact h ▸ he
    · exact ih e' h

theorem weightSum_nonneg {g : List edgeWeight} (hw : ∀ e ∈ g, 1 ≤ e.weight)
    {a b : Char} {p : List edgeWeight} (hp : IsPath g a b p) : 0 ≤ weightSum p := by
  induction hp with
  | nil c => simp [weightSum]
  | cons e he hp ih =>
    rw [weightSum_cons]
    have := hw e he
    omega

theorem isPath_append {g : List edgeWeight} {a b c : Char} {p q : List edgeWeight}
    (hp : IsPath g a b p) (hq : IsPath g b c q) : IsPath g a c (p ++ q) := by
  induction hp with
  | nil _ => exact hq
  | cons e he hp ih => exact IsPath.cons e he (ih hq)

theorem isPath_split {g : List edgeWeight} {a c : Char} {p q : List edgeWeight}
    (h : IsPath g a c (p ++ q)) : ∃ b, IsPath g a b p ∧ IsPath g b c q := by
  induction p generalizing a with
  | nil => exact ⟨a, IsPath.nil a, h⟩
  | cons e p' ih =>
    cases h with
    | cons _ he hp =>
      obtain ⟨b, h1, h2⟩ := ih hp
      exact ⟨b, IsPath.cons e he h1, h2⟩

/-- Any path can be thinned to one without repeated edges: removing the
span between two occurrences of the same edge keeps a valid path. -/
theorem exists_nodup_path {g : List edgeWeight} {a b : Char} {p : List edgeWeight}
    (hp : IsPath g a b p) : ∃ q, IsPath g a b q ∧ q.Nodup := by
  induction hp with
  | nil c => exact ⟨[], IsPath.nil c, List.nodup_nil⟩
  | cons e he hp ih =>
    obtain ⟨t, ht, hnd⟩ := ih
    by_cases hmem : e ∈ t
    · obtain ⟨t1, t2, rfl⟩ := List.append_of_mem hmem
      obtain ⟨m, h1, h2⟩ := isPath_split ht
      cases h2 with
      | cons _ he2 hp2 =>
        refine ⟨e :: t2, IsPath.cons e he hp2, ?_⟩
        exact (List.sublist_append_right t1 (e :: t2)).nodup hnd
    · exact ⟨e :: t, IsPath.cons e he ht, List.nodup_cons.mpr ⟨hmem, hnd⟩⟩

theorem sublist_sum_le {l1 l2 : List Int} (h : List.Sublist l1 l2)
    (h0 : ∀ x ∈ l2, 0 ≤ x) : l1.sum ≤ l2.sum := by
  induction h with
  | slnil => simp
  | @cons l1 l2 a h ih =>
    have ha := h0 a (by simp)
    have hr := ih fun x hx => h0 x (by simp [hx])
    simp only [List.sum_cons]
    omega
  | @cons₂ l1 l2 a h ih =>
    have hr := ih fun x hx => h0 x (by simp [hx])
    simp only [List.sum_cons]
    omega

/-- A duplicate-free selection of edges of `g` weighs at most all of `g`. -/
theorem nodup_weightSum_le {g q : List edgeWeight} (hnd : q.Nodup)
    (hsub : ∀ e ∈ q, e ∈ g) (h0 : ∀ e ∈ g, 0 ≤ e.weight) :
    weightSum q ≤ weightSum g := by
  obtain ⟨l, hperm, hsl⟩ := List.Nodup.subperm hnd hsub
  have h1 : weightSum l = weightSum q := by
    unfold weightSum
    exact List.Perm.sum_eq (hperm.map edgeWeight.weight)
  have h2 : weightSum l ≤ weightSum g := by
    unfold weightSum
    refine sublist_sum_le (hsl.map edgeWeight.weight) ?_
    intro x hx
    obtain ⟨e, he, rfl⟩ := List.mem_map.mp hx
    exact h0 e he
  omega

/-- A reachable pair of nodes has a well-defined minimum path weight. -/
theorem exists_isDist {g : List edgeWeight} (hw : ∀ e ∈ g, 1 ≤ e.weight)
    {a b : Char} (hr : Reach g a b) : ∃ d, IsDist g a b d ∧ 0 ≤ d := by
  obtain ⟨p0, hp0⟩ := hr
  have hbdd : ∃ bd : ℤ, ∀ z : ℤ, (∃ p, IsPath g a b p ∧ weightSum p = z) → bd ≤ z := by
    refine ⟨0, ?_⟩
    rintro z ⟨p, hp, rfl⟩
    exact weightSum_nonneg hw hp
  have hinh : ∃ z : ℤ, ∃ p, IsPath g a b p ∧ weightSum p = z := ⟨weightSum p0, p0, hp0, rfl⟩
  obtain ⟨lb, ⟨p, hp, hps⟩, hmin⟩ := Int.exists_least_of_bdd hbdd hinh
  refine ⟨lb, ⟨⟨p, hp, hps⟩, ?_⟩, ?_⟩
  · intro q hq
    exact hmin (weightSum q) ⟨q, hq, rfl⟩
  · rw [← hps]
    exact weightSum_nonneg hw hp

/-- With positive weights summing below 42, every minimum distance is below
the 42 infinity sentinel: thin the witness path to a duplicate-free one. -/
theorem isDist_lt_sentinel {g : List edgeWeight} (hw : ∀ e ∈ g, 1 ≤ e.weight)
    (hsum : weightSum g < 42) {a b : Char} {d : Int} (hd : IsDist g a b d) : d < 42 := by
  obtain ⟨⟨p, hp, hps⟩, hmin⟩ := hd
  obtain ⟨q, hq, hnd⟩ := exists_nodup_path hp
  have h1 : d ≤ weightSum q := hmin q hq
  have h2 : weightSum q ≤ weightSum g :=
    nodup_weightSum_le hnd (isPath_mem hq) fun e he => le_trans (by norm_num) (hw e he)
  omega

/-- Distance triangle inequality along a single edge. -/
theorem isDist_le_edge {g : List edgeWeight} {o u : Char} {du dv : Int} {e : edgeWeight}
    (hdu : IsDist g o u du) (he : e ∈ g) (hu : e.initial = u)
    (hdv : IsDist g o e.terminal dv) : dv ≤ du + e.weight := by
  obtain ⟨⟨p0, hp0, hps⟩, -⟩ := hdu
  have hstep : IsPath g e.initial e.terminal [e] :=
    IsPath.cons e he (IsPath.nil e.terminal)
  have hpath : IsPath g o e.terminal (p0 ++ [e]) := by
    refine isPath_append hp0 ?_
    rw [hu] at hstep
    exact hstep
  have := hdv.2 (p0 ++ [e]) hpath
  rw [weightSum_append, hps, weightSum_cons, weightSum_nil] at this
  omega

/-- The start node is at distance 0 from itself. -/
theorem isDist_self {g : List edgeWeight} (hw : ∀ e ∈ g, 1 ≤ e.weight) (a : Char) :
    IsDist g a a 0 := by
  refine ⟨⟨[], IsPath.nil a, rfl⟩, ?_⟩
  intro q hq
  exact weightSum_nonneg hw hq

/-! ### Alphabet facts -/

theorem nodes_ne_Z : ∀ c ∈ nodes, c ≠ 'Z' := by decide

theorem nodeToNumber_inj :
    ∀ c ∈ nodes, ∀ c' ∈ nodes, nodeToNumber c = nodeToNumber c' → c = c' := by decide

theorem nodeToNumber_le : ∀ c ∈ nodes, nodeToNumber c ≤ 6 := by decide

theorem numberToNode_inv :
    ∀ j ∈ Finset.range 7, numberToNode j ∈ nodes ∧ nodeToNumber (numberToNode j) = j := by decide

theorem nodes_card : nodes.card = 7 := by decide

/-! ### Pruned graphs: iterating removeVertex -/

/-- The cumulative effect of the removeVertex calls for a set `S` of visited
nodes: every edge into `S` has been blanked to 'Z'. -/
def pruneEdge (S : Finset Char) (e : edgeWeight) : edgeWeight :=
  if e.terminal ∈ S then { initial := 'Z', terminal := 'Z', weight := e.weight } else e

/-- The working graph after the nodes of `S` have been visited. -/
def pruneGraph (S : Finset Char) (g : List edgeWeight) : List edgeWeight :=
  g.map (pruneEdge S)

theorem pruneGraph_empty (g : List edgeWeight) : pruneGraph ∅ g = g := by
  induction g with
  | nil => rfl
  | cons e es ih =>
    have h : pruneEdge ∅ e = e := by
      unfold pruneEdge
      rw [if_neg (Finset.not_mem_empty _)]
    show pruneEdge ∅ e :: pruneGraph ∅ es = e :: es
    rw [h, ih]

theorem removeVertex_prune (g : List edgeWeight) (S : Finset Char) (cur : Char)
    (hcur : cur ∈ nodes) :
    removeVertex (pruneGraph S g) cur = pruneGraph (insert cur S) g := by
  unfold removeVertex pruneGraph
  rw [List.map_map]
  refine List.map_congr_left ?_
  intro e _
  simp only [Function.comp_apply]
  unfold pruneEdge
  by_cases h1 : e.terminal ∈ S
  · rw [if_pos h1, if_pos (Finset.mem_insert_of_mem h1)]
    rw [if_neg]
    exact fun h => nodes_ne_Z cur hcur h.symm
  · rw [if_neg h1]
    by_cases h2 : e.terminal = cur
    · rw [if_pos h2, if_pos (by rw [h2]; exact Finset.mem_insert_self cur S)]
    · rw [if_neg h2, if_neg (by rw [Finset.mem_insert]; push_neg; exact ⟨h2, h1⟩)]

theorem mem_pruneGraph_live {g : List edgeWeight} {S : Finset Char} {e : edgeWeight}
    (he : e ∈ pruneGraph S g) (hei : e.initial ≠ 'Z') : e ∈ g ∧ e.terminal ∉ S := by
  obtain ⟨e0, he0, heq⟩ := List.mem_map.mp he
  unfold pruneEdge at heq
  by_cases h1 : e0.terminal ∈ S
  · rw [if_pos h1] at heq
    exact absurd (by rw [← heq]) hei
  · rw [if_neg h1] at heq
    rw [← heq]
    exact ⟨he0, h1⟩

theorem mem_pruneGraph_of {g : List edgeWeight} {S : Finset Char} {e : edgeWeight}
    (he : e ∈ g) (ht : e.terminal ∉ S) : e ∈ pruneGraph S g := by
  refine List.mem_map.mpr ⟨e, he, ?_⟩
  unfold pruneEdge
  rw [if_neg ht]

theorem pruneGraph_weight {g : List edgeWeight} {S : Finset Char}
    (hw : ∀ e ∈ g, 1 ≤ e.weight) : ∀ e ∈ pruneGraph S g, 0 ≤ e.weight := by
  intro e he
  obtain ⟨e0, he0, heq⟩ := List.mem_map.mp he
  have h1 := hw e0 he0
  unfold pruneEdge at heq
  have hweq : e.weight = e0.weight := by
    split_ifs at heq <;> rw [← heq]
  omega

/-! ### Behaviour of the relaxation pass (findNeighbors) -/

theorem findNeighbors_cn (cur : Char) (cn : Nat) :
    ∀ (l : List edgeWeight) (nw : Nat → Int), (∀ e ∈ l, 0 ≤ e.weight) →
      findNeighbors l nw cur cn cn = nw cn := by
  intro l
  induction l with
  | nil => intro nw _; rfl
  | cons e es ih =>
    intro nw h
    have he : 0 ≤ e.weight := h e (by simp)
    have hes : ∀ e' ∈ es, 0 ≤ e'.weight := fun e' h' => h e' (by simp [h'])
    unfold findNeighbors
    split_ifs with h1 h2
    · rw [ih _ hes]
      unfold setW
      split_ifs with h3
      · exfalso
        rw [← h3] at h2
        omega
      · rfl
    · exact ih _ hes
    · exact ih _ hes

theorem findNeighbors_le (cur : Char) (cn : Nat) :
    ∀ (l : List edgeWeight) (nw : Nat → Int) (j : Nat),
      findNeighbors l nw cur cn j ≤ nw j := by
  intro l
  induction l with
  | nil => intro nw j; exact le_refl _
  | cons e es ih =>
    intro nw j
    unfold findNeighbors
    split_ifs with h1 h2
    · refine le_trans (ih _ j) ?_
      unfold setW
      split_ifs with h3
      · rw [h3]
        exact le_of_lt h2
      · exact le_refl _
    · exact ih nw j
    · exact ih nw j

theorem findNeighbors_relax (cur : Char) (cn : Nat) :
    ∀ (l : List edgeWeight) (nw : Nat → Int), (∀ e ∈ l, 0 ≤ e.weight) →
      ∀ e ∈ l, e.initial = cur →
        findNeighbors l nw cur cn (nodeToNumber e.terminal) ≤ e.weight + nw cn := by
  intro l
  induction l with
  | nil => intro nw _ e he; cases he
  | cons e0 es ih =>
    intro nw hw e he hei
    have hes : ∀ e' ∈ es, 0 ≤ e'.weight := fun e' h' => hw e' (by simp [h'])
    rcases List.mem_cons.mp he with rfl | he'
    · unfold findNeighbors
      rw [if_pos hei]
      split_ifs with h2
      · refine le_trans (findNeighbors_le cur cn es _ _) ?_
        unfold setW
        rw [if_pos rfl]
      · push_neg at h2
        exact le_trans (findNeighbors_le cur cn es _ _) h2
    · unfold findNeighbors
      split_ifs with h1 h2
      · have hcn : setW nw (nodeToNumber e0.terminal) (e0.weight + nw cn) cn = nw cn := by
          unfold setW
          split_ifs with h3
          · exfalso
            rw [← h3] at h2
            have := hw e0 (by simp)
            omega
          · rfl
        have := ih (setW nw (nodeToNumber e0.terminal) (e0.weight + nw cn)) hes e he' hei
        rw [hcn] at this
        exact this
      · exact ih nw hes e he' hei
      · exact ih nw hes e he' hei

theorem findNeighbors_cases (cur : Char) (cn : Nat) :
    ∀ (l : List edgeWeight) (nw : Nat → Int), (∀ e ∈ l, 0 ≤ e.weight) →
      ∀ j, findNeighbors l nw cur cn j = nw j ∨
        ∃ e ∈ l, e.initial = cur ∧ nodeToNumber e.terminal = j ∧
          findNeighbors l nw cur cn j = e.weight + nw cn := by
  intro l
  induction l with
  | nil => intro nw _ j; exact Or.inl rfl
  | cons e0 es ih =>
    intro nw hw j
    have hes : ∀ e' ∈ es, 0 ≤ e'.weight := fun e' h' => hw e' (by simp [h'])
    unfold findNeighbors
    split_ifs with h1 h2
    · have hcn : setW nw (nodeToNumber e0.terminal) (e0.weight + nw cn) cn = nw cn := by
        unfold setW
        split_ifs with h3
        · exfalso
          rw [← h3] at h2
          have := hw e0 (by simp)
          omega
        · rfl
      rcases ih _ hes j with h | ⟨e, he, hei, hterm, hval⟩
      · by_cases h3 : j = nodeToNumber e0.terminal
        · refine Or.inr ⟨e0, by simp, h1, h3.symm, ?_⟩
          rw [h]
          unfold setW
          rw [if_pos h3]
        · refine Or.inl ?_
          rw [h]
          unfold setW
          rw [if_neg h3]
      · refine Or.inr ⟨e, by simp [he], hei, hterm, ?_⟩
        rw [hval, hcn]
    · rcases ih nw hes j with h | ⟨e, he, hei, hterm, hval⟩
      · exact Or.inl h
      · exact Or.inr ⟨e, by simp [he], hei, hterm, hval⟩
    · rcases ih nw hes j with h | ⟨e, he, hei, hterm, hval⟩
      · exact Or.inl h
      · exact Or.inr ⟨e, by simp [he], hei, hterm, hval⟩

/-! ### Behaviour of the fringe scan (findLeast) -/

theorem findLeastAux_spec (nw : Nat → Int) :
    ∀ (l : List Nat) (base : Int) (node : Option Nat),
    base ≤ 42 →
    (node = none → base = 42) →
    (∀ k, node = some k → nw k = base ∧ nw k ≠ 0 ∧ base < 42 ∧ k < 9) →
    (∀ i ∈ l, i < 9) →
    (findLeastAux nw l (base, node)).1 ≤ base ∧
    ((findLeastAux nw l (base, node)).2 = none →
      node = none ∧ ∀ i ∈ l, nw i = 0 ∨ base ≤ nw i) ∧
    (∀ j, (findLeastAux nw l (base, node)).2 = some j →
      nw j = (findLeastAux nw l (base, node)).1 ∧ nw j ≠ 0 ∧
      (findLeastAux nw l (base, node)).1 < 42 ∧ j < 9 ∧
      ∀ i ∈ l, nw i = 0 ∨ (findLeastAux nw l (base, node)).1 ≤ nw i) := by
  intro l
  induction l with
  | nil =>
    intro base node hb hn hs _
    refine ⟨le_refl _, fun h => ⟨h, by simp⟩, fun j hj => ?_⟩
    obtain ⟨h1, h2, h3, h4⟩ := hs j hj
    exact ⟨h1, h2, h3, h4, by simp⟩
  | cons i is ih =>
    intro base node hb hn hs hl
    have hi9 : i < 9 := hl i (by simp)
    have hl' : ∀ i' ∈ is, i' < 9 := fun i' h' => hl i' (by simp [h'])
    show (findLeastAux nw (i :: is) (base, node)).1 ≤ base ∧ _ ∧ _
    unfold findLeastAux
    split_ifs with h
    · have hrec := ih (nw i) (some i) (by omega) (by simp)
        (fun k hk => by
          cases hk
          exact ⟨rfl, h.1, by omega, hi9⟩) hl'
      obtain ⟨r1, r2, r3⟩ := hrec
      refine ⟨by omega, fun hnone => ?_, fun j hj => ?_⟩
      · obtain ⟨habs, -⟩ := r2 hnone
        cases habs
      · obtain ⟨s1, s2, s3, s4, s5⟩ := r3 j hj
        refine ⟨s1, s2, s3, s4, ?_⟩
        intro i' hi'
        rcases List.mem_cons.mp hi' with rfl | hmem
        · exact Or.inr (by omega)
        · exact s5 i' hmem
    · have hrec := ih base node hb hn hs hl'
      obtain ⟨r1, r2, r3⟩ := hrec
      refine ⟨r1, fun hnone => ?_, fun j hj => ?_⟩
      · obtain ⟨h1, h2⟩ := r2 hnone
        refine ⟨h1, fun i' hi' => ?_⟩
        rcases List.mem_cons.mp hi' with rfl | hmem
        · by_cases h0 : nw i' = 0
          · exact Or.inl h0
          · refine Or.inr ?_
            rcases not_and_or.mp h with hc | hc
            · exact absurd h0 (by push_neg at hc; simp [hc])
            · push_neg at hc
              exact hc
        · exact h2 i' hmem
      · obtain ⟨s1, s2, s3, s4, s5⟩ := r3 j hj
        refine ⟨s1, s2, s3, s4, ?_⟩
        intro i' hi'
        rcases List.mem_cons.mp hi' with rfl | hmem
        · by_cases h0 : nw i' = 0
          · exact Or.inl h0
          · refine Or.inr ?_
            rcases not_and_or.mp h with hc | hc
            · exact absurd h0 (by push_neg at hc; simp [hc])
            · push_neg at hc
              omega
        · exact s5 i' hmem

theorem findLeast_none_spec {nw : Nat → Int} (h : findLeast nw = none) :
    ∀ i < 9, nw i = 0 ∨ 42 ≤ nw i := by
  unfold findLeast at h
  rw [Option.map_eq_none'] at h
  have hspec := findLeastAux_spec nw (List.range 9) 42 none (le_refl _)
    (fun _ => rfl) (fun k hk => by cases hk) (fun i hi => List.mem_range.mp hi)
  obtain ⟨-, r2, -⟩ := hspec
  obtain ⟨-, hmin⟩ := r2 h
  intro i hi
  exact hmin i (List.mem_range.mpr hi)

theorem findLeast_some_spec {nw : Nat → Int} {ch : Char} (h : findLeast nw = some ch) :
    ∃ j, j < 9 ∧ ch = numberToNode j ∧ nw j ≠ 0 ∧ nw j < 42 ∧
      ∀ i < 9, nw i = 0 ∨ nw j ≤ nw i := by
  unfold findLeast at h
  rw [Option.map_eq_some'] at h
  obtain ⟨j, hj, hch⟩ := h
  have hspec := findLeastAux_spec nw (List.range 9) 42 none (le_refl _)
    (fun _ => rfl) (fun k hk => by cases hk) (fun i hi => List.mem_range.mp hi)
  obtain ⟨-, -, r3⟩ := hspec
  obtain ⟨s1, s2, s3, s4, s5⟩ := r3 j hj
  refine ⟨j, s4, hch.symm, s2, by omega, fun i hi => ?_⟩
  have := s5 i (List.mem_range.mpr hi)
  omega

/-! ### The Dijkstra cut argument -/

/-- Walking any path from inside the visited region `S'` to a node outside
it, the first node encountered outside `S'` already has a tentative weight no
larger than the distance of the visited start plus the path weight, provided
every visited node carries its exact distance and every edge out of the
visited region has been relaxed. -/
theorem cut_exists {g : List edgeWeight} (hw : ∀ e ∈ g, 1 ≤ e.weight)
    (hA : ∀ e ∈ g, e.initial ∈ nodes ∧ e.terminal ∈ nodes)
    {S' : Finset Char} {nw2 : Nat → Int} {dl : Char → Int} {origin : Char}
    (hdl : ∀ u ∈ S', IsDist g origin u (dl u))
    (hO1 : ∀ c ∈ nodes, c ∉ S' → ∀ e ∈ g, e.initial ∈ S' → e.terminal = c →
      nw2 (nodeToNumber c) ≤ dl e.initial + e.weight) :
    ∀ {p : List edgeWeight} {start z : Char}, IsPath g start z p → start ∈ S' → z ∉ S' →
      ∃ y, y ∈ nodes ∧ y ∉ S' ∧ nw2 (nodeToNumber y) ≤ dl start + weightSum p := by
  intro p start z hp
  induction hp with
  | nil c =>
    intro hin hout
    exact absurd hin hout
  | cons e he hp ih =>
    intro hin hout
    by_cases hterm : e.terminal ∈ S'
    · obtain ⟨y, hy1, hy2, hy3⟩ := ih hterm hout
      have htri : dl e.terminal ≤ dl e.initial + e.weight :=
        isDist_le_edge (hdl e.initial hin) he rfl (hdl e.terminal hterm)
      refine ⟨y, hy1, hy2, ?_⟩
      rw [weightSum_cons]
      omega
    · refine ⟨e.terminal, (hA e he).2, hterm, ?_⟩
      have h1 := hO1 e.terminal (hA e he).2 hterm e he hin rfl
      have h2 := weightSum_nonneg hw hp
      rw [weightSum_cons]
      omega

/-! ### Step equations for the search loop -/

theorem findRouteLoop_succ_self (target : Char) (fuel : Nat) (g : List edgeWeight)
    (nw : Nat → Int) :
    findRouteLoop target (fuel + 1) g nw target =
      some (RouteResult.ok target (nw (nodeToNumber target))) := by
  simp only [findRouteLoop]
  simp

theorem findRouteLoop_succ_ne (target : Char) (fuel : Nat) (g : List edgeWeight)
    (nw : Nat → Int) (cur : Char) (h : cur ≠ target) :
    findRouteLoop target (fuel + 1) g nw cur =
      match findLeast (setW (findNeighbors g nw cur (nodeToNumber cur)) (nodeToNumber cur) 0) with
      | none => some RouteResult.stuck
      | some next =>
        findRouteLoop target fuel (removeVertex g cur)
          (setW (findNeighbors g nw cur (nodeToNumber cur)) (nodeToNumber cur) 0) next := by
  simp only [findRouteLoop]
  rw [if_neg h]

/-! ### The main loop invariant -/

theorem findRouteLoop_correct {g : List edgeWeight} {origin target : Char}
    (hw : ∀ e ∈ g, 1 ≤ e.weight)
    (hA : ∀ e ∈ g, e.initial ∈ nodes ∧ e.terminal ∈ nodes)
    (hsum : weightSum g < 42)
    (hreach : Reach g origin target) :
    ∀ (fuel : Nat) (S : Finset Char) (dl : Char → Int) (nw : Nat → Int) (cur : Char),
    8 ≤ S.card + fuel →
    (∀ c ∈ S, c ∈ nodes) → cur ∈ nodes → cur ∉ S →
    origin ∈ insert cur S →
    (∀ u ∈ insert cur S, IsDist g origin u (dl u) ∧ 0 ≤ dl u) →
    (∀ c ∈ S, nw (nodeToNumber c) = 0) →
    nw (nodeToNumber cur) = dl cur →
    (∀ c ∈ nodes, c ∉ insert cur S → ∀ e ∈ g, e.initial ∈ S → e.terminal = c →
      nw (nodeToNumber c) ≤ dl e.initial + e.weight) →
    (∀ c ∈ nodes, c ∉ insert cur S → nw (nodeToNumber c) = 42 ∨
      ∃ e ∈ g, e.initial ∈ S ∧ e.terminal = c ∧ nw (nodeToNumber c) = dl e.initial + e.weight) →
    (∀ c ∈ nodes, c ∉ insert cur S → 1 ≤ nw (nodeToNumber c) ∧ nw (nodeToNumber c) ≤ 42) →
    nw 7 = 42 → nw 8 = 42 →
    target ∉ S →
    ∃ d, findRouteLoop target fuel (pruneGraph S g) nw cur = some (RouteResult.ok target d) ∧
      IsDist g origin target d := by
  intro fuel
  induction fuel with
  | zero =>
    intro S dl nw cur hfuel hS hcurA hcurS hoS hdl hzero hcurw hO1 hO2 hbnd h7 h8 htS
    exfalso
    have hsub : S ⊆ nodes := fun c hc => hS c hc
    have hcard := Finset.card_le_card hsub
    rw [nodes_card] at hcard
    omega
  | succ fuel ih =>
    intro S dl nw cur hfuel hS hcurA hcurS hoS hdl hzero hcurw hO1 hO2 hbnd h7 h8 htS
    by_cases hdone : cur = target
    · subst hdone
      refine ⟨nw (nodeToNumber cur), findRouteLoop_succ_self cur fuel _ nw, ?_⟩
      rw [hcurw]
      exact (hdl cur (Finset.mem_insert_self _ _)).1
    · -- One pass of the loop body.
      have hδcur0 : 0 ≤ dl cur := (hdl cur (Finset.mem_insert_self _ _)).2
      have hg'w : ∀ e ∈ pruneGraph S g, 0 ≤ e.weight := pruneGraph_weight hw
      have hinj : ∀ c ∈ nodes, c ≠ cur → nodeToNumber c ≠ nodeToNumber cur :=
        fun c hc hne heq => hne (nodeToNumber_inj c hc cur hcurA heq)
      have hcn6 : nodeToNumber cur ≤ 6 := nodeToNumber_le cur hcurA
      have hstep := findRouteLoop_succ_ne target fuel (pruneGraph S g) nw cur hdone
      rw [removeVertex_prune g S cur hcurA] at hstep
      set nw1 := findNeighbors (pruneGraph S g) nw cur (nodeToNumber cur) with hnw1def
      set nw2 := setW nw1 (nodeToNumber cur) 0 with hnw2def
      have hnw2cur : nw2 (nodeToNumber cur) = 0 := by
        rw [hnw2def]
        unfold setW
        rw [if_pos rfl]
      have hnw2of : ∀ c ∈ nodes, c ≠ cur → nw2 (nodeToNumber c) = nw1 (nodeToNumber c) := by
        intro c hc hne
        rw [hnw2def]
        unfold setW
        rw [if_neg (hinj c hc hne)]
      have PB1 : ∀ c ∈ insert cur S, nw2 (nodeToNumber c) = 0 := by
        intro c hc
        rcases Finset.mem_insert.mp hc with rfl | hcS
        · exact hnw2cur
        · have hcA := hS c hcS
          have hne : c ≠ cur := fun h => hcurS (h ▸ hcS)
          rw [hnw2of c hcA hne]
          have hle := findNeighbors_le cur (nodeToNumber cur) (pruneGraph S g) nw (nodeToNumber c)
          rw [← hnw1def, hzero c hcS] at hle
          rcases findNeighbors_cases cur (nodeToNumber cur) (pruneGraph S g) nw hg'w
              (nodeToNumber c) with hcase | ⟨e, he, hei, hterm, hval⟩
          · rw [← hnw1def] at hcase
            rw [hcase, hzero c hcS]
          · exfalso
            have hlive := mem_pruneGraph_live he (by rw [hei]; exact nodes_ne_Z cur hcurA)
            have hwe := hw e hlive.1
            rw [← hnw1def] at hval
            rw [hcurw] at hval
            omega
      have PB2 : ∀ c ∈ nodes, c ∉ insert cur S → ∀ e ∈ g, e.initial ∈ insert cur S →
          e.terminal = c → nw2 (nodeToNumber c) ≤ dl e.initial + e.weight := by
        intro c hcA hcS' e he hei hterm
        have hnecur : c ≠ cur := fun h => hcS' (h ▸ Finset.mem_insert_self cur S)
        rw [hnw2of c hcA hnecur]
        rcases Finset.mem_insert.mp hei with hcur | hS0
        · have hlive : e ∈ pruneGraph S g := by
            refine mem_pruneGraph_of he fun hmem => ?_
            rw [hterm] at hmem
            exact hcS' (Finset.mem_insert_of_mem hmem)
          have hrel := findNeighbors_relax cur (nodeToNumber cur) (pruneGraph S g) nw hg'w
            e hlive hcur
          rw [← hnw1def, hterm, hcurw] at hrel
          rw [hcur]
          omega
        · have hold := hO1 c hcA hcS' e he hS0 hterm
          have hle := findNeighbors_le cur (nodeToNumber cur) (pruneGraph S g) nw (nodeToNumber c)
          rw [← hnw1def] at hle
          omega
      have PB3 : ∀ c ∈ nodes, c ∉ insert cur S → nw2 (nodeToNumber c) = 42 ∨
          ∃ e ∈ g, e.initial ∈ insert cur S ∧ e.terminal = c ∧
            nw2 (nodeToNumber c) = dl e.initial + e.weight := by
        intro c hcA hcS'
        have hnecur : c ≠ cur := fun h => hcS' (h ▸ Finset.mem_insert_self cur S)
        rw [hnw2of c hcA hnecur]
        rcases findNeighbors_cases cur (nodeToNumber cur) (pruneGraph S g) nw hg'w
            (nodeToNumber c) with hcase | ⟨e, he, hei, hterm, hval⟩
        · rw [← hnw1def] at hcase
          rcases hO2 c hcA hcS' with h42 | ⟨e, he, heiS, hterm, hval⟩
          · exact Or.inl (by rw [hcase, h42])
          · exact Or.inr ⟨e, he, Finset.mem_insert_of_mem heiS, hterm, by rw [hcase]; exact hval⟩
        · right
          have hlive := mem_pruneGraph_live he (by rw [hei]; exact nodes_ne_Z cur hcurA)
          have htermA : e.terminal ∈ nodes := (hA e hlive.1).2
          have hterm' : e.terminal = c := nodeToNumber_inj e.terminal htermA c hcA hterm
          refine ⟨e, hlive.1, by rw [hei]; exact Finset.mem_insert_self cur S, hterm', ?_⟩
          rw [← hnw1def] at hval
          rw [hval, hcurw, hei]
          omega
      have PB4 : ∀ c ∈ nodes, c ∉ insert cur S →
          1 ≤ nw2 (nodeToNumber c) ∧ nw2 (nodeToNumber c) ≤ 42 := by
        intro c hcA hcS'
        have hnecur : c ≠ cur := fun h => hcS' (h ▸ Finset.mem_insert_self cur S)
        have hold := hbnd c hcA hcS'
        have hle := findNeighbors_le cur (nodeToNumber cur) (pruneGraph S g) nw (nodeToNumber c)
        rw [← hnw1def] at hle
        constructor
        · rcases PB3 c hcA hcS' with h42 | ⟨e, he, hei, hterm, hval⟩
          · omega
          · have hwe := hw e he
            have hδi := (hdl e.initial hei).2
            omega
        · rw [hnw2of c hcA hnecur]
          omega
      have PB7 : nw2 7 = 42 := by
        have hne : (7 : Nat) ≠ nodeToNumber cur := by omega
        have e1 : nw2 7 = nw1 7 := by
          rw [hnw2def]
          unfold setW
          rw [if_neg hne]
        rcases findNeighbors_cases cur (nodeToNumber cur) (pruneGraph S g) nw hg'w 7 with
          hcase | ⟨e, he, hei, hterm, hval⟩
        · rw [← hnw1def] at hcase
          rw [e1, hcase, h7]
        · exfalso
          have hlive := mem_pruneGraph_live he (by rw [hei]; exact nodes_ne_Z cur hcurA)
          have := nodeToNumber_le e.terminal (hA e hlive.1).2
          omega
      have PB8 : nw2 8 = 42 := by
        have hne : (8 : Nat) ≠ nodeToNumber cur := by omega
        have e1 : nw2 8 = nw1 8 := by
          rw [hnw2def]
          unfold setW
          rw [if_neg hne]
        rcases findNeighbors_cases cur (nodeToNumber cur) (pruneGraph S g) nw hg'w 8 with
          hcase | ⟨e, he, hei, hterm, hval⟩
        · rw [← hnw1def] at hcase
          rw [e1, hcase, h8]
        · exfalso
          have hlive := mem_pruneGraph_live he (by rw [hei]; exact nodes_ne_Z cur hcurA)
          have := nodeToNumber_le e.terminal (hA e hlive.1).2
          omega
      -- Progress: the target is still reachable, so some fringe node exists.
      have htS' : target ∉ insert cur S := by
        rw [Finset.mem_insert]
        push_neg
        exact ⟨fun h => hdone h.symm, htS⟩
      have hδ1 : ∀ u ∈ insert cur S, IsDist g origin u (dl u) := fun u hu => (hdl u hu).1
      have hδo : dl origin = 0 := by
        have h1 := (hdl origin hoS).1
        have h2 := (hdl origin hoS).2
        have h3 := h1.2 [] (IsPath.nil origin)
        rw [weightSum_nil] at h3
        omega
      obtain ⟨dt, hdt, hdt0⟩ := exists_isDist hw hreach
      have hdtlt : dt < 42 := isDist_lt_sentinel hw hsum hdt
      obtain ⟨P, hP, hPcost⟩ := hdt.1
      obtain ⟨y, hyA, hyS', hyle⟩ := cut_exists hw hA hδ1 PB2 hP hoS htS'
      have hy1 : 1 ≤ nw2 (nodeToNumber y) := (PB4 y hyA hyS').1
      have hylt : nw2 (nodeToNumber y) < 42 := by
        rw [hδo, hPcost] at hyle
        omega
      cases hfl : findLeast nw2 with
      | none =>
        exfalso
        have hnone := findLeast_none_spec hfl (nodeToNumber y)
          (by have := nodeToNumber_le y hyA; omega)
        omega
      | some next =>
        obtain ⟨j, hj9, hjch, hj0, hjlt, hjmin⟩ := findLeast_some_spec hfl
        have hj6 : j < 7 := by
          by_contra hge
          have : j = 7 ∨ j = 8 := by omega
          rcases this with rfl | rfl
          · rw [PB7] at hjlt
            omega
          · rw [PB8] at hjlt
            omega
        have hnextA : next ∈ nodes := by
          rw [hjch]
          exact (numberToNode_inv j (Finset.mem_range.mpr hj6)).1
        have hidxnext : nodeToNumber next = j := by
          rw [hjch]
          exact (numberToNode_inv j (Finset.mem_range.mpr hj6)).2
        have hnextS' : next ∉ insert cur S := by
          intro hmem
          have := PB1 next hmem
          rw [hidxnext] at this
          exact hj0 this
        have hMdist : IsDist g origin next (nw2 j) := by
          constructor
          · rcases PB3 next hnextA hnextS' with h42 | ⟨e, he, heiS', hterm, hval⟩
            · rw [hidxnext] at h42
              omega
            · obtain ⟨p0, hp0, hp0cost⟩ := (hδ1 e.initial heiS').1
              refine ⟨p0 ++ [e], ?_, ?_⟩
              · refine isPath_append hp0 ?_
                have hone := IsPath.cons e he (IsPath.nil e.terminal)
                rw [hterm] at hone
                exact hone
              · rw [hidxnext] at hval
                rw [weightSum_append, hp0cost, weightSum_cons, weightSum_nil]
                omega
          · intro q hq
            obtain ⟨y', hy'A, hy'S', hy'le⟩ := cut_exists hw hA hδ1 PB2 hq hoS hnextS'
            have hy'1 : 1 ≤ nw2 (nodeToNumber y') := (PB4 y' hy'A hy'S').1
            have hmin := hjmin (nodeToNumber y')
              (by have := nodeToNumber_le y' hy'A; omega)
            rw [hδo] at hy'le
            omega
        -- Rebuild the invariant for the next iteration.
        set dlN := fun c => if c = next then nw2 j else dl c with hdlNdef
        have hdlNnext : dlN next = nw2 j := by
          rw [hdlNdef]
          simp
        have hdlNof : ∀ u, u ≠ next → dlN u = dl u := by
          intro u hu
          rw [hdlNdef]
          simp only [if_neg hu]
        have ihres := ih (insert cur S) dlN nw2 next
          (by rw [Finset.card_insert_of_not_mem hcurS]; omega)
          (by
            intro c hc
            rcases Finset.mem_insert.mp hc with rfl | hcS
            · exact hcurA
            · exact hS c hcS)
          hnextA hnextS'
          (Finset.mem_insert_of_mem hoS)
          (by
            intro u hu
            rcases Finset.mem_insert.mp hu with heq | huS'
            · rw [heq, hdlNnext]
              have hb := (PB4 next hnextA hnextS').1
              rw [hidxnext] at hb
              exact ⟨hMdist, by omega⟩
            · have hne : u ≠ next := fun h => hnextS' (h ▸ huS')
              rw [hdlNof u hne]
              exact hdl u huS')
          PB1
          (by rw [hidxnext, hdlNnext])
          (by
            intro c hcA hc e he hei hterm
            have hinN : e.initial ≠ next := fun h => hnextS' (h ▸ hei)
            rw [hdlNof e.initial hinN]
            exact PB2 c hcA (fun h => hc (Finset.mem_insert_of_mem h)) e he hei hterm)
          (by
            intro c hcA hc
            rcases PB3 c hcA (fun h => hc (Finset.mem_insert_of_mem h)) with
              h42 | ⟨e, he, hei, hterm, hval⟩
            · exact Or.inl h42
            · refine Or.inr ⟨e, he, hei, hterm, ?_⟩
              have hinN : e.initial ≠ next := fun h => hnextS' (h ▸ hei)
              rw [hdlNof e.initial hinN]
              exact hval)
          (fun c hcA hc => PB4 c hcA (fun h => hc (Finset.mem_insert_of_mem h)))
          PB7 PB8 htS'
        obtain ⟨d, hrun, hdist⟩ := ihres
        refine ⟨d, ?_, hdist⟩
        rw [hstep, hfl]
        exact hrun

/-- Claim C1, amended: for a loaded 18-edge graph whose edges stay within the
seven-node alphabet and carry *strictly positive* weights summing below the
42 sentinel, findRoute returns, for every reachable (origin, target) pair,
the true minimum total edge weight over all directed paths (and moves the
current location to the target).  The strict positivity is forced by the
counterexample below: the searched-for node weight 0 doubles as the visited
marker, so a zero-weight edge derails the search. -/
theorem findRoute_shortest (g : List edgeWeight) (origin target : Char)
    (hlen : g.length = 18)
    (hA : ∀ e ∈ g, e.initial ∈ nodes ∧ e.terminal ∈ nodes)
    (hw : ∀ e ∈ g, 1 ≤ e.weight)
    (hsum : weightSum g < 42)
    (horig : origin ∈ nodes) (htarg : target ∈ nodes)
    (hreach : Reach g origin target) :
    ∃ d, findRoute g origin target = some (RouteResult.ok target d) ∧
      IsDist g origin target d := by
  unfold findRoute
  have hmain := findRouteLoop_correct hw hA hsum hreach 9 ∅ (fun _ => 0)
    (setW initializeNodeWeight (nodeToNumber origin) 0) origin
    (by simp)
    (by simp)
    horig
    (Finset.not_mem_empty origin)
    (by simp)
    (by
      intro u hu
      have hueq : u = origin := by simpa using hu
      rw [hueq]
      exact ⟨isDist_self hw origin, le_refl 0⟩)
    (by simp)
    (by
      show setW initializeNodeWeight (nodeToNumber origin) 0 (nodeToNumber origin) = 0
      unfold setW
      rw [if_pos rfl])
    (by
      intro c hcA hc e he hei hterm
      exact absurd hei (Finset.not_mem_empty _))
    (by
      intro c hcA hc
      refine Or.inl ?_
      have hne : c ≠ origin := by
        intro h
        exact hc (by rw [h]; exact Finset.mem_insert_self _ _)
      show setW initializeNodeWeight (nodeToNumber origin) 0 (nodeToNumber c) = 42
      unfold setW
      rw [if_neg fun heq => hne (nodeToNumber_inj c hcA origin horig heq)]
      rfl)
    (by
      intro c hcA hc
      have hne : c ≠ origin := by
        intro h
        exact hc (by rw [h]; exact Finset.mem_insert_self _ _)
      have h42 : setW initializeNodeWeight (nodeToNumber origin) 0 (nodeToNumber c) = 42 := by
        unfold setW
        rw [if_neg fun heq => hne (nodeToNumber_inj c hcA origin horig heq)]
        rfl
      rw [h42]
      exact ⟨by norm_num, le_refl _⟩)
    (by
      show setW initializeNodeWeight (nodeToNumber origin) 0 7 = 42
      unfold setW
      rw [if_neg (by have := nodeToNumber_le origin horig; omega)]
      rfl)
    (by
      show setW initializeNodeWeight (nodeToNumber origin) 0 8 = 42
      unfold setW
      rw [if_neg (by have := nodeToNumber_le origin horig; omega)]
      rfl)
    (Finset.not_mem_empty target)
  rw [pruneGraph_empty] at hmain
  exact hmain

/-- A connected 18-edge demonstration graph with unit weights. -/
def routeDemoGraph : List edgeWeight :=
  [⟨'E', 'N', 1⟩, ⟨'N', 'F', 1⟩, ⟨'F', 'A', 1⟩, ⟨'A', 'W', 1⟩, ⟨'W', 'B', 1⟩, ⟨'B', 'M', 1⟩,
   ⟨'M', 'E', 1⟩, ⟨'E', 'N', 1⟩, ⟨'E', 'N', 1⟩, ⟨'E', 'N', 1⟩, ⟨'E', 'N', 1⟩, ⟨'E', 'N', 1⟩,
   ⟨'E', 'N', 1⟩, ⟨'E', 'N', 1⟩, ⟨'E', 'N', 1⟩, ⟨'E', 'N', 1⟩, ⟨'E', 'N', 1⟩, ⟨'E', 'N', 1⟩]

theorem findRoute_shortest_witness :
    ∃ d, findRoute routeDemoGraph 'E' 'M' = some (RouteResult.ok 'M' d) ∧
      IsDist routeDemoGraph 'E' 'M' d :=
  findRoute_shortest routeDemoGraph 'E' 'M' (by decide) (by decide) (by decide) (by decide)
    (by decide) (by decide)
    ⟨[⟨'E', 'N', 1⟩, ⟨'N', 'F', 1⟩, ⟨'F', 'A', 1⟩, ⟨'A', 'W', 1⟩, ⟨'W', 'B', 1⟩, ⟨'B', 'M', 1⟩],
      IsPath.cons ⟨'E', 'N', 1⟩ (by decide)
        (IsPath.cons ⟨'N', 'F', 1⟩ (by decide)
          (IsPath.cons ⟨'F', 'A', 1⟩ (by decide)
            (IsPath.cons ⟨'A', 'W', 1⟩ (by decide)
              (IsPath.cons ⟨'W', 'B', 1⟩ (by decide)
                (IsPath.cons ⟨'B', 'M', 1⟩ (by decide) (IsPath.nil 'M'))))))⟩

/-- An 18-edge graph obeying every constraint the spec states for the loaded
graph (alphabet endpoints, non-negative weights, weight sum below 42) on
which findRoute fails: the zero-weight edge E→N gives N the tentative weight
0, which findLeast mistakes for the visited marker. -/
def zeroWeightGraph : List edgeWeight :=
  ⟨'E', 'N', 0⟩ :: ⟨'N', 'F', 1⟩ :: List.replicate 16 ⟨'B', 'A', 1⟩

/-- Claim C1 as stated is false for a spec-conforming graph: 'F' is reachable
from 'E' (through the zero-weight edge), yet findRoute returns no distance at
all - the scan finds no candidate and the C++ code reads uninitialized memory
(modelled as `stuck`). -/
theorem findRoute_shortest_cex :
    zeroWeightGraph.length = 18 ∧
    (∀ e ∈ zeroWeightGraph, e.initial ∈ nodes ∧ e.terminal ∈ nodes ∧ 0 ≤ e.weight) ∧
    weightSum zeroWeightGraph < 42 ∧
    Reach zeroWeightGraph 'E' 'F' ∧
    findRoute zeroWeightGraph 'E' 'F' = some RouteResult.stuck := by
  refine ⟨by decide, by decide, by decide, ?_, by decide⟩
  exact ⟨[⟨'E', 'N', 0⟩, ⟨'N', 'F', 1⟩],
    IsPath.cons ⟨'E', 'N', 0⟩ (by decide)
      (IsPath.cons ⟨'N', 'F', 1⟩ (by decide) (IsPath.nil 'F'))⟩
